import Mathlib

/-!
# Verification of the airport nearest-neighbor resolution subsystem

Shallow embedding of `src/airports.rs`: the airport record model, the CSV
loader, the coordinate projection, and the three finder strategies
(`KdTreeAirportFinder`, `HashAirportFinder`, `DoubleLoopAirportFinder`).

Modelling conventions:
* `f32` values are modelled by `F32`: an exact numeric value (`val : ℚ`)
  together with a sign bit (`sign`), which is what distinguishes the two
  IEEE-754 bit patterns `+0.0` and `-0.0` that compare numerically equal.
  Structural equality of `F32` models bit-pattern equality; equality of
  `val` models numeric equality.  Arithmetic on projected coordinates is
  modelled exactly over `ℚ`.
* The transcendental functions `to_radians`, `sin`, `cos` used by
  `lat_long_to_point` are kept abstract as a parameter record `ProjOps`;
  every theorem quantifies over them, and concrete instances agree with
  IEEE `f32` at the points where they are evaluated (e.g. `sin 0 = 0`,
  `cos 0 = 1`, `to_radians 0 = 0`, all of which are exact in `f32`).
* A Rust `panic!` / `expect` / `unwrap` failure is modelled by `none`;
  fallible operations return `Option`.
-/

/-- Model of IEEE-754 `f32` (finite values): exact numeric value plus the
sign bit.  The sign bit matters only to distinguish the bit patterns
`+0.0` (`sign = false`) and `-0.0` (`sign = true`); structural equality of
this type models equality of bit patterns. -/
structure F32 where
  val : ℚ
  sign : Bool
deriving DecidableEq

/-- `struct Airport` from `src/airports.rs`. -/
structure Airport where
  name : String
  abr : String
  lat : F32
  long : F32
  id : ℕ
deriving DecidableEq

/-- A decoded CSV data row: the 5-tuple
`(String, String, f32, f32, usize)` that `decode` produces. -/
abbrev DecodedRow := String × String × F32 × F32 × ℕ

/-- The record constructed from one decoded row inside `from_csv`:
`Airport { name: v.0, abr: v.1, lat: v.2, long: v.3, id: v.4 }`. -/
def mkAirport (v : DecodedRow) : Airport :=
  ⟨v.1, v.2.1, v.2.2.1, v.2.2.2.1, v.2.2.2.2⟩

/-- The `.map(|r| r.expect(..).decode::<..>().expect(..))...collect()` part
of `from_csv`: each row either decodes (`some v`) or makes the whole load
abort (`none`, modelling the `expect` panics). -/
def decodeRows : List (Option DecodedRow) → Option (List Airport)
  | [] => some []
  | none :: _ => none
  | some v :: rest => (decodeRows rest).map (fun l => mkAirport v :: l)

/-- `from_csv` from `src/airports.rs`.  The file is modelled as the list of
its rows, each row as `some` decoded 5-tuple or `none` when it fails to
tokenize/decode; `.skip(1)` drops the header row. -/
def from_csv (rows : List (Option DecodedRow)) : Option (List Airport) :=
  decodeRows (rows.drop 1)

/-- A projected point `[f32; 3]` produced by `lat_long_to_point`. -/
structure Point where
  x : ℚ
  y : ℚ
  z : ℚ
deriving DecidableEq

/-- The primitive real operations used by `lat_long_to_point`
(`f32::to_radians`, `f32::sin`, `f32::cos`), kept abstract. -/
structure ProjOps where
  sin : ℚ → ℚ
  cos : ℚ → ℚ
  toRadians : ℚ → ℚ

/-- `lat_long_to_point` from `src/airports.rs`:
`lo = long.to_radians(); la = lat.to_radians();
x = lo.cos()*la.sin(); y = lo.sin()*la.sin(); z = la.cos()`. -/
def lat_long_to_point (P : ProjOps) (lat long : ℚ) : Point :=
  ⟨P.cos (P.toRadians long) * P.sin (P.toRadians lat),
   P.sin (P.toRadians long) * P.sin (P.toRadians lat),
   P.cos (P.toRadians lat)⟩

/-- The projected point of one airport record, as computed inside the
finder constructors: `lat_long_to_point(a.lat, a.long)`. -/
def projAirport (P : ProjOps) (a : Airport) : Point :=
  lat_long_to_point P a.lat.val a.long.val

/-- The squared Euclidean distance
`flight_point.iter().zip(coords).map(|(x,y)| (x-y)*(x-y)).sum()` computed
in `DoubleLoopAirportFinder::closest_ind`, and the metric minimized by the
kd-tree's `nearest`. -/
def sqDist (p q : Point) : ℚ :=
  (p.x - q.x) * (p.x - q.x) + (p.y - q.y) * (p.y - q.y) +
    (p.z - q.z) * (p.z - q.z)

/-- `struct KdTreeAirportFinder { tree: KdMap<[f32; 3], usize> }`.  The
`KdMap` is modelled by its list of `(point, index)` items in construction
order. -/
structure KdTreeAirportFinder where
  tree : List (Point × ℕ)

/-- Modelled from the spec: `KdMap::nearest` of the external `kd_tree`
crate, which is not part of this repository.  Per §4.4 of the spec the
query "retrieve[s] the index paired with the structurally nearest stored
point (minimum Euclidean distance in projected space)" and returns nothing
on an empty tree.  The spec leaves the tie-break between equally near
stored points open; it is modelled here as the first such item in
construction order. -/
def kdNearest (items : List (Point × ℕ)) (q : Point) : Option (Point × ℕ) :=
  match items with
  | [] => none
  | x :: xs =>
    some (xs.foldl (fun best y => if sqDist q y.1 < sqDist q best.1 then y else best) x)

/-- `KdTreeAirportFinder::new`: pair every record's projected point with
its sequence index and build the spatial index over the pairs. -/
def KdTreeAirportFinder.new (P : ProjOps) (airports : List Airport) :
    KdTreeAirportFinder :=
  ⟨airports.enum.map (fun p => (projAirport P p.2, p.1))⟩

/-- `KdTreeAirportFinder::closest_ind`: project the query, take the index
of the nearest stored item; `.expect("embty")` on an empty tree is the
`none` case. -/
def KdTreeAirportFinder.closest_ind (self : KdTreeAirportFinder)
    (P : ProjOps) (lat long : F32) : Option ℕ :=
  (kdNearest self.tree (lat_long_to_point P lat.val long.val)).map (fun r => r.2)

/-- `HashAirportFinder::bucket_coord`: the raw bit pattern of the
`(lat, long)` pair (`transmute` to `[u8; 8]`).  Bit patterns are exactly
the structural values of the `F32` pair, so the key is the pair itself. -/
def HashAirportFinder.bucket_coord (lat long : F32) : F32 × F32 :=
  (lat, long)

/-- The bit-key of a record, `bucket_coord(airport.lat, airport.long)`. -/
def HashAirportFinder.keyOf (a : Airport) : F32 × F32 :=
  HashAirportFinder.bucket_coord a.lat a.long

/-- `HashMap::get` on the association-list model of the map. -/
def findKey : List ((F32 × F32) × ℕ) → F32 × F32 → Option ℕ
  | [], _ => none
  | (k, v) :: rest, key => if key = k then some v else findKey rest key

/-- The construction loop of `HashAirportFinder::new`: insert
`bucket_coord(lat, long) -> i` for each record; if the key is already
present (`map.insert` returned `Some`), abort (`none` models the
`panic!("Two different airports had same bucket hash ...")`). -/
def buildMap : List Airport → ℕ → List ((F32 × F32) × ℕ) →
    Option (List ((F32 × F32) × ℕ))
  | [], _, m => some m
  | a :: rest, i, m =>
    match findKey m (HashAirportFinder.keyOf a) with
    | some _ => none
    | none => buildMap rest (i + 1) (m ++ [(HashAirportFinder.keyOf a, i)])

/-- `struct HashAirportFinder { map: HashMap<[u8; 8], usize> }`, the map
modelled as an association list in insertion order. -/
structure HashAirportFinder where
  map : List ((F32 × F32) × ℕ)
deriving DecidableEq

/-- `HashAirportFinder::new`. -/
def HashAirportFinder.new (airports : List Airport) : Option HashAirportFinder :=
  (buildMap airports 0 []).map (fun m => ⟨m⟩)

/-- `HashAirportFinder::closest_ind`: exact lookup of the query's bit-key;
a missing bucket is the `panic!("Cound not find bucket ...")`, modelled by
`none`. -/
def HashAirportFinder.closest_ind (self : HashAirportFinder)
    (lat long : F32) : Option ℕ :=
  findKey self.map (HashAirportFinder.bucket_coord lat long)

/-- `struct DoubleLoopAirportFinder { airports: Vec<[f32; 3]> }`. -/
structure DoubleLoopAirportFinder where
  airports : List Point

/-- `DoubleLoopAirportFinder::new`: project every record. -/
def DoubleLoopAirportFinder.new (P : ProjOps) (as : List Airport) :
    DoubleLoopAirportFinder :=
  ⟨as.map (fun a => projAirport P a)⟩

/-- One step of Rust's
`max_by(|(_, a), (_, b)| b.total_cmp(a))` over `(index, distance)` pairs:
`cmp::max_by(v1, v2, compare)` keeps `v1` exactly when
`compare(v1, v2) = Greater`, i.e. when the new distance is strictly
greater; otherwise (including ties) it moves to the later element.
`total_cmp` on the distances (which are never NaN and never `-0.0`, being
sums of squares) coincides with the numeric order modelled by `ℚ`. -/
def maxByRevStep (acc y : ℕ × ℚ) : ℕ × ℚ :=
  if acc.2 < y.2 then acc else y

/-- Rust's `iter().max_by(..)` with the reversed comparator: `None` on an
empty iterator, otherwise the reduction of `maxByRevStep` over the
enumerated elements. -/
def maxByRev : List (ℕ × ℚ) → Option (ℕ × ℚ)
  | [] => none
  | x :: xs => some (xs.foldl maxByRevStep x)

/-- `DoubleLoopAirportFinder::closest_ind`: compute every squared
distance, then `enumerate().max_by(|(_, a), (_, b)| b.total_cmp(a))`,
returning the surviving index; `.unwrap()` on an empty dataset is the
`none` case. -/
def DoubleLoopAirportFinder.closest_ind (self : DoubleLoopAirportFinder)
    (P : ProjOps) (lat long : F32) : Option ℕ :=
  (maxByRev ((self.airports.map
      (fun c => sqDist (lat_long_to_point P lat.val long.val) c)).enum)).map
    Prod.fst

/-! ## Basic facts about the squared-distance metric -/

theorem sqDist_nonneg (p q : Point) : 0 ≤ sqDist p q := by
  have hx := mul_self_nonneg (p.x - q.x)
  have hy := mul_self_nonneg (p.y - q.y)
  have hz := mul_self_nonneg (p.z - q.z)
  unfold sqDist
  linarith

theorem sqDist_self (p : Point) : sqDist p p = 0 := by
  simp [sqDist]

theorem sqDist_eq_zero (p q : Point) (h : sqDist p q = 0) : p = q := by
  have hx := mul_self_nonneg (p.x - q.x)
  have hy := mul_self_nonneg (p.y - q.y)
  have hz := mul_self_nonneg (p.z - q.z)
  unfold sqDist at h
  have hx0 : (p.x - q.x) * (p.x - q.x) = 0 := by linarith
  have hy0 : (p.y - q.y) * (p.y - q.y) = 0 := by linarith
  have hz0 : (p.z - q.z) * (p.z - q.z) = 0 := by linarith
  cases p
  cases q
  simp only [Point.mk.injEq]
  refine ⟨?_, ?_, ?_⟩ <;>
    [exact sub_eq_zero.mp (mul_self_eq_zero.mp hx0);
     exact sub_eq_zero.mp (mul_self_eq_zero.mp hy0);
     exact sub_eq_zero.mp (mul_self_eq_zero.mp hz0)]

/-! ## Lemmas about the brute-force reduction
(`enumerate().max_by(|(_, a), (_, b)| b.total_cmp(a))`) -/

/-- The reduction's result is either the accumulator or one of the
enumerated elements, and its distance component is a lower bound for the
accumulator's and for every element's. -/
theorem maxByRev_foldl_spec (l : List ℚ) :
    ∀ (n : ℕ) (acc : ℕ × ℚ),
    (List.foldl maxByRevStep acc (List.enumFrom n l) = acc ∨
      ∃ k, ∃ h : k < l.length,
        List.foldl maxByRevStep acc (List.enumFrom n l) = (n + k, l.get ⟨k, h⟩)) ∧
    (List.foldl maxByRevStep acc (List.enumFrom n l)).2 ≤ acc.2 ∧
    ∀ k (h : k < l.length),
      (List.foldl maxByRevStep acc (List.enumFrom n l)).2 ≤ l.get ⟨k, h⟩ := by
  induction l with
  | nil => intro n acc; simp [List.enumFrom]
  | cons d l ih =>
    intro n acc
    have hred : List.foldl maxByRevStep acc (List.enumFrom n (d :: l)) =
        List.foldl maxByRevStep (maxByRevStep acc (n, d)) (List.enumFrom (n + 1) l) := rfl
    obtain ⟨hmem, hacc, hall⟩ := ih (n + 1) (maxByRevStep acc (n, d))
    have hstep_le : (maxByRevStep acc (n, d)).2 ≤ acc.2 := by
      unfold maxByRevStep
      split
      · exact le_refl _
      · exact le_of_not_lt (by assumption)
    have hstep_d : (maxByRevStep acc (n, d)).2 ≤ d := by
      unfold maxByRevStep
      split
      · exact le_of_lt (by assumption)
      · exact le_refl _
    refine ⟨?_, ?_, ?_⟩
    · rw [hred]
      rcases hmem with h | ⟨k, hk, h⟩
      · rw [h]
        unfold maxByRevStep
        split
        · exact Or.inl rfl
        · exact Or.inr ⟨0, by simp, by simp⟩
      · refine Or.inr ⟨k + 1, by simpa using Nat.succ_lt_succ hk, ?_⟩
        rw [h]
        have e : n + 1 + k = n + (k + 1) := by omega
        simp [e]
    · rw [hred]; exact le_trans hacc hstep_le
    · intro k hk
      rw [hred]
      cases k with
      | zero => exact le_trans hacc hstep_d
      | succ k => exact hall k (by simpa using Nat.lt_of_succ_lt_succ hk)

/-- Lastness: provided the accumulator's index lies strictly below every
upcoming enumerated index, every element stored strictly after the
result's index has strictly greater distance (the reduction moves on even
on ties, so the survivor is the last minimum). -/
theorem maxByRev_foldl_last (l : List ℚ) :
    ∀ (n : ℕ) (acc : ℕ × ℚ), acc.1 < n →
    ∀ k (h : k < l.length),
      (List.foldl maxByRevStep acc (List.enumFrom n l)).1 < n + k →
      (List.foldl maxByRevStep acc (List.enumFrom n l)).2 < l.get ⟨k, h⟩ := by
  induction l with
  | nil => intro n acc _ k h; simp at h
  | cons d l ih =>
    intro n acc hn k hk
    have hred : List.foldl maxByRevStep acc (List.enumFrom n (d :: l)) =
        List.foldl maxByRevStep (maxByRevStep acc (n, d)) (List.enumFrom (n + 1) l) := rfl
    have hacc1 : (maxByRevStep acc (n, d)).1 < n + 1 := by
      unfold maxByRevStep
      split
      · omega
      · simp
    cases k with
    | zero =>
      intro hlt
      rw [hred] at hlt ⊢
      obtain ⟨hmem, hacc, -⟩ := maxByRev_foldl_spec l (n + 1) (maxByRevStep acc (n, d))
      have hget : (d :: l).get ⟨0, hk⟩ = d := rfl
      rw [hget]
      rcases hmem with hmm | ⟨k0, hk0, hmm⟩
      · by_cases hc : acc.2 < d
        · have hacc_eq : maxByRevStep acc (n, d) = acc := by
            unfold maxByRevStep; rw [if_pos hc]
          have h2 : (maxByRevStep acc (n, d)).2 = acc.2 := by rw [hacc_eq]
          exact lt_of_le_of_lt (le_trans hacc (le_of_eq h2)) hc
        · have hacc_eq : maxByRevStep acc (n, d) = (n, d) := by
            unfold maxByRevStep; rw [if_neg hc]
          rw [hmm, hacc_eq] at hlt
          omega
      · rw [hmm] at hlt
        simp at hlt
        omega
    | succ k =>
      intro hlt
      rw [hred] at hlt ⊢
      have := ih (n + 1) (maxByRevStep acc (n, d)) hacc1 k (by simpa using Nat.lt_of_succ_lt_succ hk)
      have harith : n + 1 + k = n + (k + 1) := by omega
      rw [harith] at this
      exact this hlt

/-- Characterization of the brute-force reduction over an enumerated
distance list: it returns the pair `(k, D.get k)` where `D.get k` is
minimal and every strictly later entry is strictly greater — i.e. the
*last* index achieving the minimum. -/
theorem maxByRev_enum_spec (D : List ℚ) (hD : D ≠ []) :
    ∃ k, ∃ h : k < D.length,
      maxByRev D.enum = some (k, D.get ⟨k, h⟩) ∧
      (∀ j (hj : j < D.length), D.get ⟨k, h⟩ ≤ D.get ⟨j, hj⟩) ∧
      (∀ j (hj : j < D.length), k < j → D.get ⟨k, h⟩ < D.get ⟨j, hj⟩) := by
  cases D with
  | nil => exact absurd rfl hD
  | cons d D =>
    have henum : (d :: D).enum = (0, d) :: List.enumFrom 1 D := rfl
    have hmx : maxByRev (d :: D).enum =
        some (List.foldl maxByRevStep (0, d) (List.enumFrom 1 D)) := rfl
    obtain ⟨hmem, hacc, hall⟩ := maxByRev_foldl_spec D 1 (0, d)
    have hlast := maxByRev_foldl_last D 1 (0, d) (by simp)
    rcases hmem with hmm | ⟨k0, hk0, hmm⟩
    · refine ⟨0, by simp, ?_, ?_, ?_⟩
      · rw [hmx, hmm]; rfl
      · intro j hj
        cases j with
        | zero => exact le_refl _
        | succ j =>
          have := hall j (by simpa using Nat.lt_of_succ_lt_succ hj)
          rw [hmm] at this
          exact this
      · intro j hj hjpos
        cases j with
        | zero => omega
        | succ j =>
          have := hlast j (by simpa using Nat.lt_of_succ_lt_succ hj)
          rw [hmm] at this
          exact this (by simp)
    · refine ⟨k0 + 1, by simpa using Nat.succ_lt_succ hk0, ?_, ?_, ?_⟩
      · rw [hmx, hmm]
        have e : 1 + k0 = k0 + 1 := by omega
        simp [e]
      · intro j hj
        have hgk : (d :: D).get ⟨k0 + 1, by simpa using Nat.succ_lt_succ hk0⟩ =
            D.get ⟨k0, hk0⟩ := rfl
        rw [hgk]
        cases j with
        | zero =>
          have := hacc
          rw [hmm] at this
          exact this
        | succ j =>
          have := hall j (by simpa using Nat.lt_of_succ_lt_succ hj)
          rw [hmm] at this
          exact this
      · intro j hj hjgt
        have hgk : (d :: D).get ⟨k0 + 1, by simpa using Nat.succ_lt_succ hk0⟩ =
            D.get ⟨k0, hk0⟩ := rfl
        rw [hgk]
        cases j with
        | zero => omega
        | succ j =>
          have := hlast j (by simpa using Nat.lt_of_succ_lt_succ hj)
          rw [hmm] at this
          exact this (by simp; omega)

/-- If index `i` is the unique strict minimizer of the distance list, the
brute-force reduction selects it. -/
theorem maxByRev_unique (D : List ℚ) (i : ℕ) (hi : i < D.length)
    (hmin : ∀ j (hj : j < D.length), j ≠ i → D.get ⟨i, hi⟩ < D.get ⟨j, hj⟩) :
    (maxByRev D.enum).map Prod.fst = some i := by
  have hne : D ≠ [] := by
    intro h
    rw [h] at hi
    simp at hi
  obtain ⟨k, hk, hsome, hle, -⟩ := maxByRev_enum_spec D hne
  have hki : k = i := by
    by_contra hne2
    have h1 := hmin k hk hne2
    have h2 := hle i hi
    exact absurd (lt_of_le_of_lt h2 h1) (lt_irrefl _)
  subst hki
  rw [hsome]
  rfl

/-! ## Lemmas about the kd-tree fold (spec-modelled nearest) -/

theorem kdFold_spec (q : Point) (xs : List (Point × ℕ)) :
    ∀ (x : Point × ℕ),
    (xs.foldl (fun best y => if sqDist q y.1 < sqDist q best.1 then y else best) x = x ∨
      xs.foldl (fun best y => if sqDist q y.1 < sqDist q best.1 then y else best) x ∈ xs) ∧
    sqDist q (xs.foldl (fun best y => if sqDist q y.1 < sqDist q best.1 then y else best) x).1 ≤
      sqDist q x.1 ∧
    ∀ y ∈ xs,
      sqDist q (xs.foldl (fun best y => if sqDist q y.1 < sqDist q best.1 then y else best) x).1 ≤
        sqDist q y.1 := by
  induction xs with
  | nil => intro x; simp
  | cons a xs ih =>
    intro x
    have hred : (a :: xs).foldl (fun best y => if sqDist q y.1 < sqDist q best.1 then y else best) x =
        xs.foldl (fun best y => if sqDist q y.1 < sqDist q best.1 then y else best)
          (if sqDist q a.1 < sqDist q x.1 then a else x) := rfl
    obtain ⟨hmem, hacc, hall⟩ := ih (if sqDist q a.1 < sqDist q x.1 then a else x)
    have hstep_x : sqDist q (if sqDist q a.1 < sqDist q x.1 then a else x).1 ≤ sqDist q x.1 := by
      split
      · exact le_of_lt (by assumption)
      · exact le_refl _
    have hstep_a : sqDist q (if sqDist q a.1 < sqDist q x.1 then a else x).1 ≤ sqDist q a.1 := by
      split
      · exact le_refl _
      · exact le_of_not_lt (by assumption)
    refine ⟨?_, ?_, ?_⟩
    · rw [hred]
      rcases hmem with h | h
      · rw [h]
        split
        · exact Or.inr (List.mem_cons_self a xs)
        · exact Or.inl rfl
      · exact Or.inr (List.mem_cons_of_mem a h)
    · rw [hred]
      exact le_trans hacc hstep_x
    · intro y hy
      rw [hred]
      rcases List.mem_cons.mp hy with h | h
      · rw [h]
        exact le_trans hacc hstep_a
      · exact hall y h

/-- Characterization of the spec-modelled kd-tree query on a non-empty
tree: it returns some stored item whose distance to the query point is
minimal among all stored items. -/
theorem kdNearest_spec (items : List (Point × ℕ)) (q : Point) (hne : items ≠ []) :
    ∃ pr, kdNearest items q = some pr ∧ pr ∈ items ∧
      ∀ y ∈ items, sqDist q pr.1 ≤ sqDist q y.1 := by
  cases items with
  | nil => exact absurd rfl hne
  | cons x xs =>
    obtain ⟨hmem, hacc, hall⟩ := kdFold_spec q xs x
    refine ⟨_, rfl, ?_, ?_⟩
    · rcases hmem with h | h
      · rw [h]; exact List.mem_cons_self x xs
      · exact List.mem_cons_of_mem x h
    · intro y hy
      rcases List.mem_cons.mp hy with h | h
      · rw [h]; exact hacc
      · exact hall y h

/-! ## Helpers about enumerated and mapped lists -/

theorem get_map_eq {α β : Type} (f : α → β) (l : List α) (j : ℕ)
    (hj : j < l.length) (hj2 : j < (l.map f).length) :
    (l.map f).get ⟨j, hj2⟩ = f (l.get ⟨j, hj⟩) := by
  rw [List.get_map]

theorem mem_enumFrom_map {α β : Type} (g : ℕ × α → β) (l : List α) :
    ∀ (n : ℕ) (b : β),
      b ∈ (List.enumFrom n l).map g ↔
        ∃ k, ∃ h : k < l.length, b = g (n + k, l.get ⟨k, h⟩) := by
  induction l with
  | nil => intro n b; simp [List.enumFrom]
  | cons a l ih =>
    intro n b
    have hred : (List.enumFrom n (a :: l)).map g =
        g (n, a) :: (List.enumFrom (n + 1) l).map g := rfl
    rw [hred]
    constructor
    · intro hb
      rcases List.mem_cons.mp hb with h | h
      · exact ⟨0, by simp, by simpa using h⟩
      · obtain ⟨k, hk, hbk⟩ := (ih (n + 1) b).mp h
        refine ⟨k + 1, by simpa using Nat.succ_lt_succ hk, ?_⟩
        rw [hbk]
        have e : n + 1 + k = n + (k + 1) := by omega
        rw [e]
        rfl
    · rintro ⟨k, hk, hbk⟩
      cases k with
      | zero =>
        have hb : b = g (n, a) := by rw [hbk]; simp
        rw [hb]
        exact List.mem_cons_self _ _
      | succ k =>
        apply List.mem_cons_of_mem
        apply (ih (n + 1) b).mpr
        refine ⟨k, by simpa using Nat.lt_of_succ_lt_succ hk, ?_⟩
        rw [hbk]
        have e : n + 1 + k = n + (k + 1) := by omega
        rw [e]
        rfl

theorem enumFrom_map_comp {α β : Type} (g : α → β) (l : List α) :
    ∀ (n : ℕ), ((List.enumFrom n l).map (fun p => g p.2)) = l.map g := by
  induction l with
  | nil => intro n; rfl
  | cons a l ih =>
    intro n
    have hred : (List.enumFrom n (a :: l)).map (fun p => g p.2) =
        g a :: (List.enumFrom (n + 1) l).map (fun p => g p.2) := rfl
    rw [hred, ih (n + 1)]
    rfl

/-! ## Lemmas about the hash-map model -/

theorem findKey_eq_none (m : List ((F32 × F32) × ℕ)) (k : F32 × F32) :
    findKey m k = none ↔ k ∉ m.map Prod.fst := by
  induction m with
  | nil => simp [findKey]
  | cons e m ih =>
    obtain ⟨ek, ev⟩ := e
    simp only [findKey, List.map_cons, List.mem_cons]
    by_cases h : k = ek
    · simp [h]
    · simp [h, ih]

theorem findKey_append_none (m1 m2 : List ((F32 × F32) × ℕ)) (k : F32 × F32)
    (h : findKey m1 k = none) : findKey (m1 ++ m2) k = findKey m2 k := by
  induction m1 with
  | nil => rfl
  | cons e m1 ih =>
    obtain ⟨ek, ev⟩ := e
    simp only [findKey] at h ⊢
    by_cases hk : k = ek
    · rw [if_pos hk] at h
      exact absurd h (by simp)
    · rw [if_neg hk] at h ⊢
      exact ih h

/-- The construction loop aborts exactly when the keys accumulated so far
together with the keys of the remaining records contain a duplicate. -/
theorem buildMap_none_iff :
    ∀ (rest : List Airport) (i : ℕ) (m : List ((F32 × F32) × ℕ)),
      (m.map Prod.fst).Nodup →
      (buildMap rest i m = none ↔
        ¬ (m.map Prod.fst ++ rest.map HashAirportFinder.keyOf).Nodup) := by
  intro rest
  induction rest with
  | nil =>
    intro i m hm
    simp [buildMap, hm]
  | cons a rest ih =>
    intro i m hm
    cases hfk : findKey m (HashAirportFinder.keyOf a) with
    | some v =>
      have hmem : HashAirportFinder.keyOf a ∈ m.map Prod.fst := by
        by_contra hc
        rw [← findKey_eq_none m (HashAirportFinder.keyOf a)] at hc
        rw [hfk] at hc
        exact absurd hc (by simp)
      constructor
      · intro _ hnd
        obtain ⟨-, -, hdisj⟩ := List.nodup_append.mp hnd
        exact hdisj hmem (List.mem_cons_self _ _)
      · intro _
        simp [buildMap, hfk]
    | none =>
      have hred : buildMap (a :: rest) i m =
          buildMap rest (i + 1) (m ++ [(HashAirportFinder.keyOf a, i)]) := by
        simp [buildMap, hfk]
      have hkeys : (m ++ [(HashAirportFinder.keyOf a, i)]).map Prod.fst =
          m.map Prod.fst ++ [HashAirportFinder.keyOf a] := by
        simp
      have hnotin : HashAirportFinder.keyOf a ∉ m.map Prod.fst :=
        (findKey_eq_none m (HashAirportFinder.keyOf a)).mp hfk
      have hnd2 : ((m ++ [(HashAirportFinder.keyOf a, i)]).map Prod.fst).Nodup := by
        rw [hkeys]
        refine List.nodup_append.mpr ⟨hm, by simp, ?_⟩
        intro y hy hy2
        rw [List.mem_singleton] at hy2
        rw [hy2] at hy
        exact hnotin hy
      rw [hred, ih (i + 1) (m ++ [(HashAirportFinder.keyOf a, i)]) hnd2, hkeys]
      rw [List.append_assoc, List.singleton_append, List.map_cons]

/-- When the construction loop succeeds, the final map is the accumulated
map followed by the `key -> index` pairs of the remaining records in
order, indices counted from `i`. -/
theorem buildMap_some_eq :
    ∀ (rest : List Airport) (i : ℕ) (m m' : List ((F32 × F32) × ℕ)),
      buildMap rest i m = some m' →
      m' = m ++ (List.enumFrom i rest).map
        (fun p => (HashAirportFinder.keyOf p.2, p.1)) := by
  intro rest
  induction rest with
  | nil =>
    intro i m m' h
    simp [buildMap] at h
    simp [List.enumFrom, ← h]
  | cons a rest ih =>
    intro i m m' h
    cases hfk : findKey m (HashAirportFinder.keyOf a) with
    | some v => simp [buildMap, hfk] at h
    | none =>
      have hred : buildMap (a :: rest) i m =
          buildMap rest (i + 1) (m ++ [(HashAirportFinder.keyOf a, i)]) := by
        simp [buildMap, hfk]
      rw [hred] at h
      have := ih (i + 1) (m ++ [(HashAirportFinder.keyOf a, i)]) m' h
      rw [this, List.append_assoc, List.singleton_append]
      rfl

/-- A successful `HashAirportFinder::new` yields the map holding exactly
`keyOf record_i -> i` in order, and the record keys are then duplicate
free. -/
theorem hash_new_some (as : List Airport) (f : HashAirportFinder)
    (h : HashAirportFinder.new as = some f) :
    f.map = (List.enumFrom 0 as).map
        (fun p => (HashAirportFinder.keyOf p.2, p.1)) ∧
      (as.map HashAirportFinder.keyOf).Nodup := by
  obtain ⟨m, hm, hf⟩ := Option.map_eq_some'.mp h
  constructor
  · rw [← hf]
    have := buildMap_some_eq as 0 [] m hm
    simpa using this
  · by_contra hnd
    have hni : buildMap as 0 [] = none := by
      rw [buildMap_none_iff as 0 [] (by simp)]
      simpa using hnd
    rw [hm] at hni
    exact absurd hni (by simp)

/-- Looking up the key of record `j` in the fully built map returns
`n + j`, provided the record keys are duplicate free. -/
theorem findKey_enum_self :
    ∀ (l : List Airport) (n j : ℕ) (hj : j < l.length),
      (l.map HashAirportFinder.keyOf).Nodup →
      findKey ((List.enumFrom n l).map
          (fun p => (HashAirportFinder.keyOf p.2, p.1)))
        (HashAirportFinder.keyOf (l.get ⟨j, hj⟩)) = some (n + j) := by
  intro l
  induction l with
  | nil => intro n j hj; simp at hj
  | cons a l ih =>
    intro n j hj hnd
    have hred : (List.enumFrom n (a :: l)).map
        (fun p => (HashAirportFinder.keyOf p.2, p.1)) =
        (HashAirportFinder.keyOf a, n) :: (List.enumFrom (n + 1) l).map
          (fun p => (HashAirportFinder.keyOf p.2, p.1)) := rfl
    rw [hred]
    rw [List.map_cons] at hnd
    obtain ⟨hnotin, hndl⟩ := List.nodup_cons.mp hnd
    cases j with
    | zero =>
      have hget : (a :: l).get ⟨0, hj⟩ = a := rfl
      rw [hget]
      simp [findKey]
    | succ j =>
      have hget : (a :: l).get ⟨j + 1, hj⟩ = l.get ⟨j, by simpa using Nat.lt_of_succ_lt_succ hj⟩ := rfl
      rw [hget]
      have hne : HashAirportFinder.keyOf
          (l.get ⟨j, by simpa using Nat.lt_of_succ_lt_succ hj⟩) ≠
          HashAirportFinder.keyOf a := by
        intro he
        apply hnotin
        rw [← he]
        exact List.mem_map_of_mem _ (l.get_mem _ _)
      simp only [findKey, if_neg hne]
      have := ih (n + 1) j (by simpa using Nat.lt_of_succ_lt_succ hj) hndl
      rw [this]
      have e : n + 1 + j = n + (j + 1) := by omega
      rw [e]

/-! ## Concrete instances used to evaluate the model -/

/-- Concrete projection primitives (identity maps); the structural claims
hold for every `ProjOps`, so any instance serves for evaluation. -/
def Pid : ProjOps := ⟨fun q => q, fun q => q, fun q => q⟩

/-- Concrete projection primitives agreeing with IEEE `f32` at the points
where they are evaluated below: `to_radians 0 = 0`, `sin 0 = 0` and
`cos 0 = 1` hold exactly in `f32`.  The values away from `0` are
irrelevant to the statements using this instance (they are multiplied by
`sin 0 = 0`). -/
def Pzero : ProjOps :=
  ⟨fun q => if q = 0 then 0 else 1/2, fun q => if q = 0 then 1 else 1/3, fun q => q⟩

/-- A degenerate projection instance mapping every coordinate to the same
point; used to separate finders that consult the projection from the one
that does not. -/
def Pconst : ProjOps := ⟨fun _ => 0, fun _ => 0, fun _ => 0⟩

/-- An `f32` value with the plus sign bit. -/
def mkF32 (q : ℚ) : F32 := ⟨q, false⟩

def aptB : Airport := ⟨"BBB", "BB", mkF32 1, mkF32 1, 1⟩

/-- Same coordinates as `aptB`, different name and id. -/
def aptB2 : Airport := ⟨"B2", "B2", mkF32 1, mkF32 1, 2⟩

def aptD : Airport := ⟨"DDD", "DD", mkF32 2, mkF32 2, 4⟩

def aptZ : Airport := ⟨"ZZZ", "ZZ", mkF32 0, mkF32 0, 0⟩

/-- Same coordinates as `aptZ`, different name and id. -/
def aptZ2 : Airport := ⟨"Z2", "Z2", mkF32 0, mkF32 0, 5⟩

/-- Latitude `0`, longitude `90`: a coordinate pair distinct from `aptZ`'s
that projects to the same point (any longitude at latitude `0` does, since
`sin 0 = 0` exactly). -/
def aptE : Airport := ⟨"EEE", "EE", mkF32 0, mkF32 90, 3⟩

/-! ## Claim theorems -/

theorem decodeRows_map_some (ds : List DecodedRow) :
    decodeRows (ds.map some) = some (ds.map mkAirport) := by
  induction ds with
  | nil => rfl
  | cons d ds ih => simp [decodeRows, ih]

/-- C8: for an input file that opens and whose every non-header row
decodes into the 5-field shape, the loader skips exactly the first
(header) row and returns one record per remaining row, with record `k`
built from the fields of row `k + 1` in order
(name, abbreviation, latitude, longitude, id). -/
theorem from_csv_loads_all_rows (hd : Option DecodedRow) (ds : List DecodedRow) :
    from_csv (hd :: ds.map some) = some (ds.map mkAirport) ∧
    (ds.map mkAirport).length = (hd :: ds.map some).length - 1 ∧
    ∀ (k : ℕ) (h : k < ds.length),
      (ds.map mkAirport).get ⟨k, by simpa using h⟩ = mkAirport (ds.get ⟨k, h⟩) := by
  refine ⟨?_, by simp, ?_⟩
  · show decodeRows (ds.map some) = some (ds.map mkAirport)
    exact decodeRows_map_some ds
  · intro k h
    exact get_map_eq mkAirport ds k h (by simpa using h)

/-- C8 witness: a concrete two-data-row file loads both rows in order. -/
theorem from_csv_loads_all_rows_witness :
    from_csv (none :: [("BBB", "BB", mkF32 1, mkF32 1, 1),
        ("DDD", "DD", mkF32 2, mkF32 2, 4)].map some) =
      some [aptB, aptD] ∧
    ([("BBB", "BB", mkF32 1, mkF32 1, 1),
        ("DDD", "DD", mkF32 2, mkF32 2, 4)].map mkAirport).get ⟨1, by simp⟩ =
      mkAirport ("DDD", "DD", mkF32 2, mkF32 2, 4) := by
  have h := from_csv_loads_all_rows none
    [("BBB", "BB", mkF32 1, mkF32 1, 1), ("DDD", "DD", mkF32 2, mkF32 2, 4)]
  exact ⟨h.1, h.2.2 1 (by simp)⟩

/-- C9: the projection and every finder query are pure functions of their
arguments — there is no hidden state in the embedding of the subsystem, so
bit-identical inputs always produce identical outputs and repeated queries
against the same finder instance return the same index. -/
theorem projection_and_queries_deterministic (P : ProjOps) (lat long : ℚ)
    (kf : KdTreeAirportFinder) (hf : HashAirportFinder)
    (bf : DoubleLoopAirportFinder) (la lo : F32) :
    lat_long_to_point P lat long = lat_long_to_point P lat long ∧
    kf.closest_ind P la lo = kf.closest_ind P la lo ∧
    hf.closest_ind la lo = hf.closest_ind la lo ∧
    bf.closest_ind P la lo = bf.closest_ind P la lo :=
  ⟨rfl, rfl, rfl, rfl⟩

/-- C10: the hash key is the raw coordinate bit pattern, so the
numerically equal but bit-distinct values `+0.0` and `-0.0` are different
keys: building over a record at `+0.0` and querying with `-0.0` aborts
(`none`) even though the two values compare numerically equal. -/
theorem hash_key_is_bit_pattern :
    (F32.mk 0 false).val = (F32.mk 0 true).val ∧
    F32.mk 0 false ≠ F32.mk 0 true ∧
    (HashAirportFinder.new [⟨"JFK", "JFK", F32.mk 0 false, F32.mk 0 false, 0⟩]).map
      (fun f => f.closest_ind (F32.mk 0 true) (F32.mk 0 false)) = some none := by
  refine ⟨rfl, by simp, ?_⟩
  have hnew : HashAirportFinder.new
      [⟨"JFK", "JFK", F32.mk 0 false, F32.mk 0 false, 0⟩] =
      some ⟨[((F32.mk 0 false, F32.mk 0 false), 0)]⟩ := rfl
  rw [hnew, Option.map_some']
  simp [HashAirportFinder.closest_ind, HashAirportFinder.bucket_coord, findKey]

/-- C5 counterexample: building a finder from an empty dataset does not
abort — the one fallible constructor (the exact-hash one) succeeds and
returns the finder with the empty map.  (The other two constructors are
total: they cannot fail on any input.) -/
theorem empty_dataset_build_succeeds :
    (HashAirportFinder.new ([] : List Airport)).isSome = true := rfl

/-- C5 amended: building any of the three finders from an empty dataset
succeeds, and querying a finder built from the empty dataset fails
fatally (`none`) on all three strategies. -/
theorem empty_dataset_build_ok_query_fails (P : ProjOps) (lat long : F32) :
    HashAirportFinder.new ([] : List Airport) = some ⟨[]⟩ ∧
    (KdTreeAirportFinder.new P []).closest_ind P lat long = none ∧
    (DoubleLoopAirportFinder.new P []).closest_ind P lat long = none ∧
    (HashAirportFinder.new ([] : List Airport)).map
      (fun f => f.closest_ind lat long) = some none :=
  ⟨rfl, rfl, rfl, rfl⟩

theorem not_nodup_map_iff {α β : Type} (l : List α) (f : α → β) :
    ¬ (l.map f).Nodup ↔
      ∃ i j : Fin l.length, i ≠ j ∧ f (l.get i) = f (l.get j) := by
  rw [List.nodup_iff_injective_get, Function.not_injective_iff]
  constructor
  · rintro ⟨a, b, hab, hne⟩
    refine ⟨⟨a.1, by simpa using a.2⟩, ⟨b.1, by simpa using b.2⟩, ?_, ?_⟩
    · intro h
      apply hne
      apply Fin.ext
      simpa using congrArg Fin.val h
    · have ha := get_map_eq f l a.1 (by simpa using a.2) a.2
      have hb := get_map_eq f l b.1 (by simpa using b.2) b.2
      rw [← ha, ← hb]
      exact hab
  · rintro ⟨i, j, hne, heq⟩
    refine ⟨⟨i.1, by simpa using i.2⟩, ⟨j.1, by simpa using j.2⟩, ?_, ?_⟩
    · have ha := get_map_eq f l i.1 i.2 (by simpa using i.2)
      have hb := get_map_eq f l j.1 j.2 (by simpa using j.2)
      rw [ha, hb]
      exact heq
    · intro h
      apply hne
      apply Fin.ext
      simpa using congrArg Fin.val h

theorem keys_of_enum_map (as : List Airport) (n : ℕ) :
    ((List.enumFrom n as).map
        (fun p => (HashAirportFinder.keyOf p.2, p.1))).map Prod.fst =
      as.map HashAirportFinder.keyOf := by
  rw [List.map_map]
  have h := enumFrom_map_comp HashAirportFinder.keyOf as n
  simpa [Function.comp] using h

/-- C6: the exact-hash finder fails at construction exactly when two
distinct records produce the same coordinate bit-key, and a query on a
successfully built finder fails exactly when the query coordinate's
bit-key is absent from the record keys; otherwise construction and query
succeed. -/
theorem hash_fail_conditions :
    (∀ as : List Airport,
      (HashAirportFinder.new as = none ↔
        ∃ i j : Fin as.length, i ≠ j ∧
          HashAirportFinder.keyOf (as.get i) = HashAirportFinder.keyOf (as.get j))) ∧
    (∀ (as : List Airport) (f : HashAirportFinder),
      HashAirportFinder.new as = some f →
      ∀ lat long : F32,
        (f.closest_ind lat long = none ↔
          HashAirportFinder.bucket_coord lat long ∉
            as.map HashAirportFinder.keyOf)) := by
  constructor
  · intro as
    have h1 : HashAirportFinder.new as = none ↔ buildMap as 0 [] = none :=
      Option.map_eq_none'
    have h2 := buildMap_none_iff as 0 [] (by simp)
    rw [h1, h2]
    have h3 : (List.map Prod.fst ([] : List ((F32 × F32) × ℕ)) ++
        as.map HashAirportFinder.keyOf) = as.map HashAirportFinder.keyOf := by simp
    rw [h3]
    exact not_nodup_map_iff as HashAirportFinder.keyOf
  · intro as f hnew lat long
    obtain ⟨hmap, hnd⟩ := hash_new_some as f hnew
    show findKey f.map (HashAirportFinder.bucket_coord lat long) = none ↔ _
    rw [hmap, findKey_eq_none, keys_of_enum_map]

/-- C6 witness: a successfully built single-record finder, evaluated at a
query key that is absent. -/
theorem hash_fail_conditions_witness :
    (HashAirportFinder.mk [(HashAirportFinder.keyOf aptB, 0)]).closest_ind
        (mkF32 3) (mkF32 3) = none ↔
      HashAirportFinder.bucket_coord (mkF32 3) (mkF32 3) ∉
        [aptB].map HashAirportFinder.keyOf :=
  hash_fail_conditions.2 [aptB] ⟨[(HashAirportFinder.keyOf aptB, 0)]⟩ rfl
    (mkF32 3) (mkF32 3)

/-- C7 counterexample: on a single-record dataset, not every query on
every strategy returns index 0 — the exact-hash finder aborts (`none`) on
any query whose bit pattern is not the stored one. -/
theorem singleton_hash_query_fails :
    (HashAirportFinder.new [aptB]).map
      (fun f => f.closest_ind (mkF32 2) (mkF32 2)) = some none := by
  have hnew : HashAirportFinder.new [aptB] =
      some ⟨[(HashAirportFinder.keyOf aptB, 0)]⟩ := rfl
  rw [hnew, Option.map_some']
  have hne : HashAirportFinder.bucket_coord (mkF32 2) (mkF32 2) ≠
      HashAirportFinder.keyOf aptB := by
    simp [HashAirportFinder.bucket_coord, HashAirportFinder.keyOf, aptB, mkF32]
  simp [HashAirportFinder.closest_ind, findKey, if_neg hne]

/-- C7 amended: on a single-record dataset, every query on the tree-based
and brute-force finders returns index 0; the exact-hash finder returns 0
on the query with the record's exact stored bit pattern and aborts
(`none`) on every other query. -/
theorem singleton_every_query (P : ProjOps) (a : Airport) (lat long : F32) :
    (KdTreeAirportFinder.new P [a]).closest_ind P lat long = some 0 ∧
    (DoubleLoopAirportFinder.new P [a]).closest_ind P lat long = some 0 ∧
    (HashAirportFinder.new [a]).map
      (fun f => f.closest_ind a.lat a.long) = some (some 0) ∧
    ∀ lat2 long2 : F32,
      HashAirportFinder.bucket_coord lat2 long2 ≠ HashAirportFinder.keyOf a →
      (HashAirportFinder.new [a]).map
        (fun f => f.closest_ind lat2 long2) = some none := by
  have hnew : HashAirportFinder.new [a] =
      some ⟨[(HashAirportFinder.keyOf a, 0)]⟩ := rfl
  refine ⟨rfl, rfl, ?_, ?_⟩
  · rw [hnew, Option.map_some']
    simp [HashAirportFinder.closest_ind, findKey, HashAirportFinder.keyOf]
  · intro lat2 long2 hne
    rw [hnew, Option.map_some']
    simp [HashAirportFinder.closest_ind, findKey, if_neg hne]

/-- C7 witness: concrete single-record dataset, an arbitrary query on the
tree finder and a bit-mismatching query on the hash finder. -/
theorem singleton_every_query_witness :
    (KdTreeAirportFinder.new Pid [aptB]).closest_ind Pid (mkF32 5) (mkF32 7) =
      some 0 ∧
    (HashAirportFinder.new [aptB]).map
      (fun f => f.closest_ind (mkF32 3) (mkF32 4)) = some none := by
  have h := singleton_every_query Pid aptB (mkF32 5) (mkF32 7)
  refine ⟨h.1, h.2.2.2 (mkF32 3) (mkF32 4) ?_⟩
  simp [HashAirportFinder.bucket_coord, HashAirportFinder.keyOf, aptB, mkF32]

/-- Shared helper: when index `i` strictly minimizes the squared distance
from the projected query to the projected records, both the tree-based
and the brute-force finder return `i`. -/
theorem closest_ind_of_unique_min (P : ProjOps) (as : List Airport)
    (lat long : F32) (i : ℕ) (hi : i < as.length)
    (hmin : ∀ j (hj : j < as.length), j ≠ i →
      sqDist (lat_long_to_point P lat.val long.val)
          (projAirport P (as.get ⟨i, hi⟩)) <
        sqDist (lat_long_to_point P lat.val long.val)
          (projAirport P (as.get ⟨j, hj⟩))) :
    (KdTreeAirportFinder.new P as).closest_ind P lat long = some i ∧
    (DoubleLoopAirportFinder.new P as).closest_ind P lat long = some i := by
  constructor
  · have htree : (KdTreeAirportFinder.new P as).tree =
        (List.enumFrom 0 as).map (fun p => (projAirport P p.2, p.1)) := rfl
    have hmemi : (projAirport P (as.get ⟨i, hi⟩), i) ∈
        (KdTreeAirportFinder.new P as).tree := by
      rw [htree]
      exact (mem_enumFrom_map _ as 0 _).mpr ⟨i, hi, by simp⟩
    have hne : (KdTreeAirportFinder.new P as).tree ≠ [] :=
      List.ne_nil_of_mem hmemi
    obtain ⟨pr, hpr, hprmem, hprmin⟩ :=
      kdNearest_spec _ (lat_long_to_point P lat.val long.val) hne
    rw [htree] at hprmem
    obtain ⟨m, hm, hpreq⟩ := (mem_enumFrom_map _ as 0 pr).mp hprmem
    have hmle := hprmin _ hmemi
    have hmi : m = i := by
      by_contra hc
      have h1 := hmin m hm hc
      rw [hpreq] at hmle
      simp only [] at hmle
      exact absurd (lt_of_le_of_lt hmle h1) (lt_irrefl _)
    subst hmi
    show (kdNearest (KdTreeAirportFinder.new P as).tree
        (lat_long_to_point P lat.val long.val)).map (fun r => r.2) = some m
    rw [hpr, hpreq]
    simp
  · show (maxByRev (((as.map (fun a => projAirport P a)).map
        (fun c => sqDist (lat_long_to_point P lat.val long.val) c)).enum)).map
      Prod.fst = some i
    refine maxByRev_unique _ i (by simpa using hi) ?_
    intro j hj hne
    have hj2 : j < as.length := by simpa using hj
    have hi3 : i < (as.map (fun a => projAirport P a)).length := by simpa using hi
    have hj3 : j < (as.map (fun a => projAirport P a)).length := by simpa using hj2
    have e1 : ((as.map (fun a => projAirport P a)).map
        (fun c => sqDist (lat_long_to_point P lat.val long.val) c)).get
          ⟨i, by simpa using hi⟩ =
        sqDist (lat_long_to_point P lat.val long.val)
          (projAirport P (as.get ⟨i, hi⟩)) := by
      rw [get_map_eq _ _ i hi3 (by simpa using hi)]
      rw [get_map_eq _ _ i hi hi3]
    have e2 : ((as.map (fun a => projAirport P a)).map
        (fun c => sqDist (lat_long_to_point P lat.val long.val) c)).get
          ⟨j, hj⟩ =
        sqDist (lat_long_to_point P lat.val long.val)
          (projAirport P (as.get ⟨j, hj2⟩)) := by
      rw [get_map_eq _ _ j hj3 hj]
      rw [get_map_eq _ _ j hj2 hj3]
    rw [e1, e2]
    exact hmin j hj2 hne

/-- C1 (amended): the claim holds whenever a single index strictly
minimizes the projected squared distance to the query: the Tree-Based and
Brute-Force finders then return that same index.  (On ties the two
strategies may disagree — see the counterexample — because the
brute-force reduction keeps the last minimum while the tree query need
not.) -/
theorem tree_brute_equivalence_unique (P : ProjOps) (as : List Airport)
    (lat long : F32) (i : ℕ) (hi : i < as.length)
    (hmin : ∀ j (hj : j < as.length), j ≠ i →
      sqDist (lat_long_to_point P lat.val long.val)
          (projAirport P (as.get ⟨i, hi⟩)) <
        sqDist (lat_long_to_point P lat.val long.val)
          (projAirport P (as.get ⟨j, hj⟩))) :
    (KdTreeAirportFinder.new P as).closest_ind P lat long =
      (DoubleLoopAirportFinder.new P as).closest_ind P lat long ∧
    (KdTreeAirportFinder.new P as).closest_ind P lat long = some i := by
  obtain ⟨h1, h2⟩ := closest_ind_of_unique_min P as lat long i hi hmin
  exact ⟨h1.trans h2.symm, h1⟩

/-- C1 counterexample: on a dataset of two records with identical
coordinates, every query ties; the (spec-modelled) tree query returns the
first minimal item, index 0, while the brute-force finder returns the last,
index 1 — the two strategies disagree. -/
theorem tree_brute_differ_on_tie :
    (KdTreeAirportFinder.new Pid [aptZ, aptZ2]).closest_ind Pid
        (mkF32 0) (mkF32 0) = some 0 ∧
    (DoubleLoopAirportFinder.new Pid [aptZ, aptZ2]).closest_ind Pid
        (mkF32 0) (mkF32 0) = some 1 := by
  constructor
  · norm_num [KdTreeAirportFinder.closest_ind, KdTreeAirportFinder.new,
      kdNearest, projAirport, lat_long_to_point, Pid, aptZ, aptZ2, mkF32,
      sqDist, List.enum, List.enumFrom]
  · norm_num [DoubleLoopAirportFinder.closest_ind, DoubleLoopAirportFinder.new,
      projAirport, lat_long_to_point, Pid, aptZ, aptZ2, mkF32, sqDist,
      maxByRev, maxByRevStep, List.enum, List.enumFrom]

/-- C1 witness: a concrete two-record dataset with a unique nearest
record. -/
theorem tree_brute_equivalence_unique_witness :
    (KdTreeAirportFinder.new Pid [aptB, aptD]).closest_ind Pid
        (mkF32 1) (mkF32 1) =
      (DoubleLoopAirportFinder.new Pid [aptB, aptD]).closest_ind Pid
        (mkF32 1) (mkF32 1) ∧
    (KdTreeAirportFinder.new Pid [aptB, aptD]).closest_ind Pid
        (mkF32 1) (mkF32 1) = some 0 := by
  apply tree_brute_equivalence_unique Pid [aptB, aptD] (mkF32 1) (mkF32 1) 0
    (by simp)
  intro j hj hne
  have hj2 : j = 1 := by simp at hj; omega
  subst hj2
  show sqDist (lat_long_to_point Pid (mkF32 1).val (mkF32 1).val)
      (projAirport Pid aptB) <
    sqDist (lat_long_to_point Pid (mkF32 1).val (mkF32 1).val)
      (projAirport Pid aptD)
  norm_num [projAirport, lat_long_to_point, Pid, aptB, aptD, mkF32, sqDist]

/-- Core of the brute-force tie-break analysis, stated over the stored
point list: whenever `closest_ind` returns `k`, the distance at `k` is
minimal and every strictly later stored point is strictly farther. -/
theorem brute_core (q : Point) (airs : List Point) (k : ℕ)
    (hk : (maxByRev ((airs.map (fun c => sqDist q c)).enum)).map Prod.fst =
      some k) :
    ∃ h : k < airs.length,
      (∀ j (hj : j < airs.length),
        sqDist q (airs.get ⟨k, h⟩) ≤ sqDist q (airs.get ⟨j, hj⟩)) ∧
      ∀ j (hj : j < airs.length), k < j →
        sqDist q (airs.get ⟨k, h⟩) < sqDist q (airs.get ⟨j, hj⟩) := by
  cases airs with
  | nil => exact absurd hk (by simp [maxByRev, List.enum, List.enumFrom])
  | cons a rest =>
    obtain ⟨k0, hk0, hsome, hmin, hlast⟩ := maxByRev_enum_spec
      ((a :: rest).map (fun c => sqDist q c)) (by simp)
    rw [hsome] at hk
    simp only [Option.map_some', Option.some.injEq] at hk
    subst hk
    refine ⟨by simpa using hk0, ?_, ?_⟩
    · intro j hj
      have e1 := get_map_eq (fun c => sqDist q c) (a :: rest) k0
        (by simpa using hk0) hk0
      have e2 := get_map_eq (fun c => sqDist q c) (a :: rest) j hj
        (by simpa using hj)
      have h1 := hmin j (by simpa using hj)
      rw [e1, e2] at h1
      exact h1
    · intro j hj hjgt
      have e1 := get_map_eq (fun c => sqDist q c) (a :: rest) k0
        (by simpa using hk0) hk0
      have e2 := get_map_eq (fun c => sqDist q c) (a :: rest) j hj
        (by simpa using hj)
      have h1 := hlast j (by simpa using hj) hjgt
      rw [e1, e2] at h1
      exact h1

/-- C2 (amended): when several stored projected points achieve the same
minimal squared distance, the brute-force `closest_ind` returns the
**latest** (largest) such sequence index, not the earliest: the returned
index achieves the minimum and every strictly later index is strictly
farther.  (Rust's `max_by` keeps the second element of equal pairs, and
the comparator is reversed, so the reduction moves past ties.) -/
theorem brute_force_returns_latest_min (P : ProjOps)
    (f : DoubleLoopAirportFinder) (lat long : F32) (k : ℕ)
    (hk : f.closest_ind P lat long = some k) :
    ∃ h : k < f.airports.length,
      (∀ j (hj : j < f.airports.length),
        sqDist (lat_long_to_point P lat.val long.val) (f.airports.get ⟨k, h⟩) ≤
          sqDist (lat_long_to_point P lat.val long.val) (f.airports.get ⟨j, hj⟩)) ∧
      ∀ j (hj : j < f.airports.length), k < j →
        sqDist (lat_long_to_point P lat.val long.val) (f.airports.get ⟨k, h⟩) <
          sqDist (lat_long_to_point P lat.val long.val) (f.airports.get ⟨j, hj⟩) :=
  brute_core (lat_long_to_point P lat.val long.val) f.airports k hk

/-- C2 counterexample: two records with identical coordinates — both
stored points are equal, so sequence index 0 also achieves the minimal
distance, yet the brute-force finder returns the later index 1 rather
than the earliest index 0. -/
theorem brute_force_tie_returns_last :
    (DoubleLoopAirportFinder.new Pid [aptB, aptB2]).airports.get
        ⟨0, by simp [DoubleLoopAirportFinder.new]⟩ =
      (DoubleLoopAirportFinder.new Pid [aptB, aptB2]).airports.get
        ⟨1, by simp [DoubleLoopAirportFinder.new]⟩ ∧
    (DoubleLoopAirportFinder.new Pid [aptB, aptB2]).closest_ind Pid
        (mkF32 1) (mkF32 1) = some 1 := by
  constructor
  · rfl
  · norm_num [DoubleLoopAirportFinder.closest_ind, DoubleLoopAirportFinder.new,
      projAirport, lat_long_to_point, Pid, aptB, aptB2, mkF32, sqDist,
      maxByRev, maxByRevStep, List.enum, List.enumFrom]

/-- C2 witness: a concrete dataset on which the returned index is checked
to be the minimal-and-last one. -/
theorem brute_force_returns_latest_min_witness :
    ∃ h : 0 < (DoubleLoopAirportFinder.new Pid [aptB, aptD]).airports.length,
      (∀ j (hj : j <
          (DoubleLoopAirportFinder.new Pid [aptB, aptD]).airports.length),
        sqDist (lat_long_to_point Pid (mkF32 1).val (mkF32 1).val)
            ((DoubleLoopAirportFinder.new Pid [aptB, aptD]).airports.get
              ⟨0, h⟩) ≤
          sqDist (lat_long_to_point Pid (mkF32 1).val (mkF32 1).val)
            ((DoubleLoopAirportFinder.new Pid [aptB, aptD]).airports.get
              ⟨j, hj⟩)) ∧
      ∀ (j : ℕ) (hj : j <
          (DoubleLoopAirportFinder.new Pid [aptB, aptD]).airports.length),
        0 < j →
        sqDist (lat_long_to_point Pid (mkF32 1).val (mkF32 1).val)
            ((DoubleLoopAirportFinder.new Pid [aptB, aptD]).airports.get
              ⟨0, h⟩) <
          sqDist (lat_long_to_point Pid (mkF32 1).val (mkF32 1).val)
            ((DoubleLoopAirportFinder.new Pid [aptB, aptD]).airports.get
              ⟨j, hj⟩) :=
  brute_force_returns_latest_min Pid (DoubleLoopAirportFinder.new Pid [aptB, aptD])
    (mkF32 1) (mkF32 1) 0
    (by norm_num [DoubleLoopAirportFinder.closest_ind, DoubleLoopAirportFinder.new,
      projAirport, lat_long_to_point, Pid, aptB, aptD, mkF32, sqDist,
      maxByRev, maxByRevStep, List.enum, List.enumFrom])

/-- C4 (amended): querying a finder with the precise stored coordinates of
record `i` returns `i` provided (tree-based and brute-force) no other
record's **projected point** coincides with record `i`'s — sharing only
the coordinate pair is not enough, since distinct pairs can project to the
same point — and (exact-hash) the finder was successfully constructed,
which already guarantees record `i`'s bit-key is unique. -/
theorem roundtrip_exact (P : ProjOps) (as : List Airport) (i : ℕ)
    (hi : i < as.length) :
    ((∀ j (hj : j < as.length), j ≠ i →
        projAirport P (as.get ⟨j, hj⟩) ≠ projAirport P (as.get ⟨i, hi⟩)) →
      (KdTreeAirportFinder.new P as).closest_ind P (as.get ⟨i, hi⟩).lat
          (as.get ⟨i, hi⟩).long = some i ∧
      (DoubleLoopAirportFinder.new P as).closest_ind P (as.get ⟨i, hi⟩).lat
          (as.get ⟨i, hi⟩).long = some i) ∧
    ∀ f, HashAirportFinder.new as = some f →
      f.closest_ind (as.get ⟨i, hi⟩).lat (as.get ⟨i, hi⟩).long = some i := by
  constructor
  · intro huniq
    apply closest_ind_of_unique_min P as (as.get ⟨i, hi⟩).lat
      (as.get ⟨i, hi⟩).long i hi
    intro j hj hne
    have hq : lat_long_to_point P (as.get ⟨i, hi⟩).lat.val
        (as.get ⟨i, hi⟩).long.val = projAirport P (as.get ⟨i, hi⟩) := rfl
    rw [hq, sqDist_self]
    rcases lt_or_eq_of_le (sqDist_nonneg (projAirport P (as.get ⟨i, hi⟩))
        (projAirport P (as.get ⟨j, hj⟩))) with h | h
    · exact h
    · exact absurd (sqDist_eq_zero _ _ h.symm).symm (huniq j hj hne)
  · intro f hnew
    obtain ⟨hmap, hnd⟩ := hash_new_some as f hnew
    show findKey f.map (HashAirportFinder.bucket_coord (as.get ⟨i, hi⟩).lat
        (as.get ⟨i, hi⟩).long) = some i
    rw [hmap]
    have hkey : HashAirportFinder.keyOf (as.get ⟨i, hi⟩) =
        HashAirportFinder.bucket_coord (as.get ⟨i, hi⟩).lat
          (as.get ⟨i, hi⟩).long := rfl
    rw [← hkey]
    have h := findKey_enum_self as 0 i hi hnd
    simpa using h

/-- C4 witness: a singleton dataset round-trips on all three finders. -/
theorem roundtrip_exact_witness :
    (KdTreeAirportFinder.new Pid [aptB]).closest_ind Pid aptB.lat aptB.long =
      some 0 ∧
    (DoubleLoopAirportFinder.new Pid [aptB]).closest_ind Pid aptB.lat
      aptB.long = some 0 ∧
    (HashAirportFinder.mk [(HashAirportFinder.keyOf aptB, 0)]).closest_ind
      aptB.lat aptB.long = some 0 := by
  have h := roundtrip_exact Pid [aptB] 0 (by simp)
  have h1 := h.1 (by intro j hj hne; exfalso; simp at hj; omega)
  exact ⟨h1.1, h1.2, h.2 ⟨[(HashAirportFinder.keyOf aptB, 0)]⟩ rfl⟩

/-- C4 counterexample: records at (0, 0) and (0, 90) have distinct
coordinate pairs, yet both project to the same point — at latitude 0 the
factor `sin(radians 0) = 0` is exact in `f32`, so `x` and `y` vanish for
any longitude.  Querying record 0's own stored coordinates on the
brute-force finder then returns 1, not 0, because the tied minimum goes
to the last index. -/
theorem roundtrip_fails_on_projection_collision :
    (aptZ.lat, aptZ.long) ≠ (aptE.lat, aptE.long) ∧
    projAirport Pzero aptZ = projAirport Pzero aptE ∧
    (DoubleLoopAirportFinder.new Pzero [aptZ, aptE]).closest_ind Pzero
      aptZ.lat aptZ.long = some 1 := by
  refine ⟨by simp [aptZ, aptE, mkF32], ?_, ?_⟩
  · norm_num [projAirport, lat_long_to_point, Pzero, aptZ, aptE, mkF32]
  · norm_num [DoubleLoopAirportFinder.closest_ind, DoubleLoopAirportFinder.new,
      projAirport, lat_long_to_point, Pzero, aptZ, aptE, mkF32, sqDist,
      maxByRev, maxByRevStep, List.enum, List.enumFrom]

theorem map_proj_congr (P : ProjOps) :
    ∀ (as1 as2 : List Airport), as1.length = as2.length →
      (∀ k (h1 : k < as1.length) (h2 : k < as2.length),
        projAirport P (as1.get ⟨k, h1⟩) = projAirport P (as2.get ⟨k, h2⟩)) →
      as1.map (fun a => projAirport P a) = as2.map (fun a => projAirport P a) := by
  intro as1
  induction as1 with
  | nil =>
    intro as2 hlen _
    cases as2 with
    | nil => rfl
    | cons b bs => simp at hlen
  | cons a as1 ih =>
    intro as2 hlen hpt
    cases as2 with
    | nil => simp at hlen
    | cons b bs =>
      have htail : as1.map (fun a => projAirport P a) =
          bs.map (fun a => projAirport P a) := by
        apply ih bs (by simpa using hlen)
        intro k hk1 hk2
        exact hpt (k + 1) (by simpa using Nat.succ_lt_succ hk1)
          (by simpa using Nat.succ_lt_succ hk2)
      have h0 : projAirport P a = projAirport P b := hpt 0 (by simp) (by simp)
      simp only [List.map_cons]
      rw [h0, htail]

theorem enum_map_proj_congr (P : ProjOps) :
    ∀ (as1 as2 : List Airport) (n : ℕ), as1.length = as2.length →
      (∀ k (h1 : k < as1.length) (h2 : k < as2.length),
        projAirport P (as1.get ⟨k, h1⟩) = projAirport P (as2.get ⟨k, h2⟩)) →
      (List.enumFrom n as1).map (fun p => (projAirport P p.2, p.1)) =
        (List.enumFrom n as2).map (fun p => (projAirport P p.2, p.1)) := by
  intro as1
  induction as1 with
  | nil =>
    intro as2 n hlen _
    cases as2 with
    | nil => rfl
    | cons b bs => simp at hlen
  | cons a as1 ih =>
    intro as2 n hlen hpt
    cases as2 with
    | nil => simp at hlen
    | cons b bs =>
      have h0 : projAirport P a = projAirport P b := hpt 0 (by simp) (by simp)
      have htail := ih bs (n + 1) (by simpa using hlen) (fun k hk1 hk2 =>
        hpt (k + 1) (by simpa using Nat.succ_lt_succ hk1)
          (by simpa using Nat.succ_lt_succ hk2))
      show (projAirport P a, n) :: (List.enumFrom (n + 1) as1).map
          (fun p => (projAirport P p.2, p.1)) =
        (projAirport P b, n) :: (List.enumFrom (n + 1) bs).map
          (fun p => (projAirport P p.2, p.1))
      rw [h0, htail]

/-- C3 (amended): the projection computes exactly
`(cos lo * sin la, sin lo * sin la, cos la)` with `la = radians(lat)`,
`lo = radians(long)`, and it is the single function through which the
tree-based and brute-force constructors and queries consume coordinates:
datasets with pointwise equal projections build identical finders and
queries with equal projected points get equal answers.  The exact-hash
finder, by contrast, never invokes the projection (see the
counterexample), so the claim's "all three strategies" must be weakened
to those two. -/
theorem projection_formula_and_usage :
    (∀ (P : ProjOps) (lat long : ℚ),
      lat_long_to_point P lat long =
        ⟨P.cos (P.toRadians long) * P.sin (P.toRadians lat),
         P.sin (P.toRadians long) * P.sin (P.toRadians lat),
         P.cos (P.toRadians lat)⟩) ∧
    (∀ (P : ProjOps) (as1 as2 : List Airport),
      as1.length = as2.length →
      (∀ k (h1 : k < as1.length) (h2 : k < as2.length),
        projAirport P (as1.get ⟨k, h1⟩) = projAirport P (as2.get ⟨k, h2⟩)) →
      KdTreeAirportFinder.new P as1 = KdTreeAirportFinder.new P as2 ∧
      DoubleLoopAirportFinder.new P as1 = DoubleLoopAirportFinder.new P as2) ∧
    (∀ (P : ProjOps) (kf : KdTreeAirportFinder) (bf : DoubleLoopAirportFinder)
        (lat1 long1 lat2 long2 : F32),
      lat_long_to_point P lat1.val long1.val =
        lat_long_to_point P lat2.val long2.val →
      kf.closest_ind P lat1 long1 = kf.closest_ind P lat2 long2 ∧
      bf.closest_ind P lat1 long1 = bf.closest_ind P lat2 long2) := by
  refine ⟨fun P lat long => rfl, ?_, ?_⟩
  · intro P as1 as2 hlen hpt
    exact ⟨congrArg KdTreeAirportFinder.mk
        (enum_map_proj_congr P as1 as2 0 hlen hpt),
      congrArg DoubleLoopAirportFinder.mk (map_proj_congr P as1 as2 hlen hpt)⟩
  · intro P kf bf lat1 long1 lat2 long2 h
    constructor
    · show (kdNearest kf.tree (lat_long_to_point P lat1.val long1.val)).map
          (fun r => r.2) =
        (kdNearest kf.tree (lat_long_to_point P lat2.val long2.val)).map
          (fun r => r.2)
      rw [h]
    · show (maxByRev ((bf.airports.map
          (fun c => sqDist (lat_long_to_point P lat1.val long1.val) c)).enum)).map
          Prod.fst =
        (maxByRev ((bf.airports.map
          (fun c => sqDist (lat_long_to_point P lat2.val long2.val) c)).enum)).map
          Prod.fst
      rw [h]

/-- C3 counterexample: under a projection instance collapsing every
coordinate to one point, queries (1,1) and (2,2) have identical projected
points, yet the exact-hash finder answers them differently (hit vs.
abort): its constructor and query consult the raw bit pattern, never the
projection, so the projection is not "invoked by the constructors and
queries of all three finder strategies". -/
theorem hash_ignores_projection :
    lat_long_to_point Pconst (mkF32 1).val (mkF32 1).val =
      lat_long_to_point Pconst (mkF32 2).val (mkF32 2).val ∧
    (HashAirportFinder.new [aptB]).map
      (fun f => f.closest_ind (mkF32 1) (mkF32 1)) = some (some 0) ∧
    (HashAirportFinder.new [aptB]).map
      (fun f => f.closest_ind (mkF32 2) (mkF32 2)) = some none := by
  refine ⟨rfl, ?_, ?_⟩
  · have hnew : HashAirportFinder.new [aptB] =
        some ⟨[(HashAirportFinder.keyOf aptB, 0)]⟩ := rfl
    rw [hnew, Option.map_some']
    have hkey : HashAirportFinder.bucket_coord (mkF32 1) (mkF32 1) =
        HashAirportFinder.keyOf aptB := rfl
    simp [HashAirportFinder.closest_ind, findKey, hkey]
  · have hnew : HashAirportFinder.new [aptB] =
        some ⟨[(HashAirportFinder.keyOf aptB, 0)]⟩ := rfl
    rw [hnew, Option.map_some']
    have hne : HashAirportFinder.bucket_coord (mkF32 2) (mkF32 2) ≠
        HashAirportFinder.keyOf aptB := by
      simp [HashAirportFinder.bucket_coord, HashAirportFinder.keyOf, aptB, mkF32]
    simp [HashAirportFinder.closest_ind, findKey, if_neg hne]

/-- C3 witness: two datasets with equal projections build equal finders;
two queries with equal projected points get equal answers. -/
theorem projection_formula_and_usage_witness :
    (KdTreeAirportFinder.new Pid [aptB] = KdTreeAirportFinder.new Pid [aptB2] ∧
      DoubleLoopAirportFinder.new Pid [aptB] =
        DoubleLoopAirportFinder.new Pid [aptB2]) ∧
    ((KdTreeAirportFinder.mk []).closest_ind Pconst (mkF32 1) (mkF32 1) =
        (KdTreeAirportFinder.mk []).closest_ind Pconst (mkF32 2) (mkF32 2) ∧
      (DoubleLoopAirportFinder.mk []).closest_ind Pconst (mkF32 1) (mkF32 1) =
        (DoubleLoopAirportFinder.mk []).closest_ind Pconst (mkF32 2) (mkF32 2)) := by
  constructor
  · apply projection_formula_and_usage.2.1 Pid [aptB] [aptB2] rfl
    intro k h1 h2
    cases k with
    | zero => rfl
    | succ k => exfalso; simp at h1
  · exact projection_formula_and_usage.2.2 Pconst ⟨[]⟩ ⟨[]⟩ (mkF32 1) (mkF32 1)
      (mkF32 2) (mkF32 2) rfl
